import Mathlib

/-!
# SoundFlow service — shallow embedding and verification

This file embeds the audio transport pipeline of the SoundFlow service
(`src/service/src/main.rs`) in Lean 4 and proves the spec's testable
properties about it.

Modelling decisions:

* A sample is an `f32` in the Rust code.  The code never performs
  arithmetic on samples — they are only copied (`copy_from_slice`) or
  set to the constant `0.0` — so the embedding uses `ℚ` for sample
  values (`0`, `1`, `1/2` stand for `0.0`, `1.0`, `0.5`); every claim
  is about which sample values land where, never about float rounding.
* A `Packet` is the Rust `Vec<f32>`, embedded as `List Sample`.
* The relay queues are `ringbuf::HeapRb::<Vec<f32>>::new(128)` split
  into producer/consumer halves.  The `ringbuf` crate is an external
  dependency (its source is not part of this repository), so the queue
  is modelled from the spec: a bounded FIFO of capacity 128 whose
  `push` never blocks and fails (leaving the queue unchanged) exactly
  when the queue is full, and whose `pop` returns the oldest element.
* The tokio broadcast channel used by the Flow Broadcaster is likewise
  external; it is modelled from the spec as an append-only log with a
  per-subscriber cursor and lagged-reader semantics (capacity 128).
* The hardware callbacks become pure functions from (queue state,
  buffer contents) to (queue state, new buffer contents).
-/

/-- Sample values; stands for `f32`, which the code only ever copies. -/
abbrev Sample := ℚ

/-- A packet of samples: the Rust `Vec<f32>` payload of a `Flow`. -/
abbrev Packet := List Sample

/-- `const PACKAGE_SIZE: usize = 1000;` (src/service/src/main.rs:26). -/
def PACKAGE_SIZE : Nat := 1000

/-- Capacity of both relay queues: `HeapRb::new(128)`. -/
def QUEUE_CAPACITY : Nat := 128

/-- Modelled from the spec: the `ringbuf` crate's `HeapRb<Vec<f32>>`
(not part of this repository's sources) — a bounded FIFO of Packets,
capacity `QUEUE_CAPACITY`; `items` lists the queued packets oldest
first. -/
structure RelayQueue where
  items : List Packet
deriving DecidableEq, Repr

/-- Modelled from the spec: `Producer::push` of the `ringbuf` crate.
Never blocks; on a full queue it fails, returning `false` and the
queue unchanged (the incoming packet is dropped by the caller). -/
def RelayQueue.push (q : RelayQueue) (p : Packet) : Bool × RelayQueue :=
  if q.items.length < QUEUE_CAPACITY then (true, ⟨q.items ++ [p]⟩)
  else (false, q)

/-- Modelled from the spec: `Consumer::pop` of the `ringbuf` crate.
Returns the oldest packet and the remaining queue, or `none` when
empty. -/
def RelayQueue.pop (q : RelayQueue) : Option (Packet × RelayQueue) :=
  match q.items with
  | [] => none
  | p :: rest => some (p, ⟨rest⟩)

/-- Fuel-driven worker for `chunksOf` (fuel bounds the recursion depth;
`chunksOf` supplies `l.length`, which suffices whenever `n > 0`). -/
def chunksAux : Nat → Nat → List Sample → List (List Sample)
  | _, _, [] => []
  | 0, _, _ :: _ => []
  | fuel + 1, n, a :: l => (a :: l).take n :: chunksAux fuel n ((a :: l).drop n)

/-- Rust's `slice::chunks(n)` / `chunks_mut(n)`: consecutive chunks of
length `n`, the last possibly shorter; an empty slice yields no
chunks. -/
def chunksOf (n : Nat) (l : List Sample) : List (List Sample) :=
  chunksAux l.length n l

theorem chunksAux_congr (f₁ : Nat) : ∀ (f₂ n : Nat) (l : List Sample),
    l.length ≤ f₁ → l.length ≤ f₂ → 0 < n →
    chunksAux f₁ n l = chunksAux f₂ n l := by
  induction f₁ with
  | zero =>
    intro f₂ n l h₁ _ _
    interval_cases hl : l.length
    · simp [List.length_eq_zero.mp hl, chunksAux]
  | succ f ih =>
    intro f₂ n l h₁ h₂ hn
    match l, f₂ with
    | [], _ => simp [chunksAux]
    | a :: l', 0 => simp at h₂
    | a :: l', f₂' + 1 =>
      simp only [chunksAux]
      congr 1
      have hl₁ : l'.length + 1 ≤ f + 1 := by simpa using h₁
      have hl₂ : l'.length + 1 ≤ f₂' + 1 := by simpa using h₂
      apply ih
      · simp only [List.length_drop]; simp only [List.length_cons]; omega
      · simp only [List.length_drop]; simp only [List.length_cons]; omega
      · exact hn

/-- Unfolding equation for `chunksOf` on a nonempty list. -/
theorem chunksOf_cons (n : Nat) (hn : 0 < n) (a : Sample) (l : List Sample) :
    chunksOf n (a :: l) = (a :: l).take n :: chunksOf n ((a :: l).drop n) := by
  show chunksAux (a :: l).length n (a :: l) = _
  have hlen : (a :: l).length = l.length + 1 := by simp
  rw [hlen]
  simp only [chunksAux]
  congr 1
  apply chunksAux_congr
  · simp only [List.length_drop]; omega
  · simp
  · exact hn

@[simp] theorem chunksOf_nil (n : Nat) : chunksOf n [] = [] := rfl

theorem chunksAux_nil_fuel (fuel n : Nat) : chunksAux fuel n [] = [] := by
  cases fuel <;> rfl

theorem flatten_chunksAux (fuel : Nat) : ∀ (n : Nat) (l : List Sample),
    l.length ≤ fuel → 0 < n → (chunksAux fuel n l).flatten = l := by
  induction fuel with
  | zero =>
    intro n l h _
    have hl : l = [] := List.length_eq_zero.mp (Nat.le_zero.mp h)
    subst hl
    rfl
  | succ f ih =>
    intro n l h hn
    match l with
    | [] => rfl
    | a :: l' =>
      simp only [chunksAux, List.flatten_cons]
      rw [ih n _ (by simp only [List.length_drop, List.length_cons] at h ⊢; omega) hn]
      exact List.take_append_drop n (a :: l')

/-- The chunks of a buffer concatenate back to the buffer. -/
theorem flatten_chunksOf (n : Nat) (hn : 0 < n) (l : List Sample) :
    (chunksOf n l).flatten = l :=
  flatten_chunksAux l.length n l (Nat.le_refl _) hn

theorem length_mem_chunksAux (fuel : Nat) : ∀ (n : Nat) (l c : List Sample),
    0 < n → c ∈ chunksAux fuel n l → 0 < c.length ∧ c.length ≤ n := by
  induction fuel with
  | zero =>
    intro n l c _ hc
    match l with
    | [] => simp [chunksAux] at hc
    | _ :: _ => simp [chunksAux] at hc
  | succ f ih =>
    intro n l c hn hc
    match l with
    | [] => simp [chunksAux] at hc
    | a :: l' =>
      simp only [chunksAux, List.mem_cons] at hc
      rcases hc with hc | hc
      · subst hc
        constructor
        · simp only [List.length_take, List.length_cons]
          omega
        · simp only [List.length_take]
          omega
      · exact ih n _ c hn hc

/-- Every chunk is nonempty and at most `n` long. -/
theorem length_mem_chunksOf (n : Nat) (l c : List Sample) (hn : 0 < n)
    (hc : c ∈ chunksOf n l) : 0 < c.length ∧ c.length ≤ n :=
  length_mem_chunksAux l.length n l c hn hc

theorem length_mem_dropLast_chunksAux (fuel : Nat) : ∀ (n : Nat) (l c : List Sample),
    l.length ≤ fuel → 0 < n → c ∈ (chunksAux fuel n l).dropLast → c.length = n := by
  induction fuel with
  | zero =>
    intro n l c h _ hc
    have hl : l = [] := List.length_eq_zero.mp (Nat.le_zero.mp h)
    subst hl
    simp [chunksAux] at hc
  | succ f ih =>
    intro n l c h hn hc
    match l with
    | [] => simp [chunksAux] at hc
    | a :: l' =>
      simp only [chunksAux] at hc
      by_cases hrest : chunksAux f n ((a :: l').drop n) = []
      · rw [hrest] at hc
        simp at hc
      · rw [List.dropLast_cons_of_ne_nil hrest, List.mem_cons] at hc
        have hdrop : (a :: l').drop n ≠ [] := by
          intro hd
          rw [hd, chunksAux_nil_fuel] at hrest
          exact hrest rfl
        have hlong : n < (a :: l').length := by
          by_contra hle
          exact hdrop (List.drop_eq_nil_of_le (by omega))
        rcases hc with hc | hc
        · subst hc
          simp only [List.length_take]
          omega
        · exact ih n _ c (by simp only [List.length_drop, List.length_cons] at *; omega) hn hc

/-- Every chunk except possibly the last has length exactly `n`. -/
theorem length_mem_dropLast_chunksOf (n : Nat) (l c : List Sample) (hn : 0 < n)
    (hc : c ∈ (chunksOf n l).dropLast) : c.length = n :=
  length_mem_dropLast_chunksAux l.length n l c (Nat.le_refl _) hn hc

theorem chunksOf_eq_of_ne_nil (n : Nat) (hn : 0 < n) (l : List Sample) (hl : l ≠ []) :
    chunksOf n l = l.take n :: chunksOf n (l.drop n) := by
  match l with
  | [] => exact absurd rfl hl
  | a :: l' => exact chunksOf_cons n hn a l'

theorem chunksOf_eq_singleton (n : Nat) (hn : 0 < n) (l : List Sample)
    (hl : l ≠ []) (hlen : l.length ≤ n) : chunksOf n l = [l] := by
  rw [chunksOf_eq_of_ne_nil n hn l hl, List.take_of_length_le hlen,
    List.drop_eq_nil_of_le hlen]
  rfl

/-- `sample[..n].copy_from_slice(&src[..n])`: overwrite the first `n`
elements of `dst` with the first `n` elements of `src`, leaving the
rest of `dst` unchanged.  (The call sites guarantee `n ≤ dst.length`
and `n ≤ src.length`; outside that the unreachable arms keep `dst`.) -/
def copyFirst : Nat → List Sample → List Sample → List Sample
  | 0, dst, _ => dst
  | _ + 1, [], _ => []
  | _ + 1, d :: dst, [] => d :: dst
  | n + 1, _ :: dst, s :: src => s :: copyFirst n dst src

theorem copyFirst_eq (n : Nat) : ∀ (dst src : List Sample),
    n ≤ dst.length → n ≤ src.length →
    copyFirst n dst src = src.take n ++ dst.drop n := by
  induction n with
  | zero => intro dst src _ _; simp [copyFirst]
  | succ m ih =>
    intro dst src hd hs
    match dst, src with
    | [], _ => simp at hd
    | _ :: _, [] => simp at hs
    | d :: dst', s :: src' =>
      simp only [copyFirst, List.take_succ_cons, List.drop_succ_cons, List.cons_append]
      rw [ih dst' src' (by simpa using hd) (by simpa using hs)]

/-- Body of the `speaker` output callback (src/service/src/main.rs:158-165)
for one chunk `sample` of the output buffer: pop a packet; if one is
available copy its first `min(sample.len(), packet.len())` samples over
the chunk's prefix; otherwise zero the whole chunk. -/
def outputChunk (q : RelayQueue) (sample : List Sample) : List Sample × RelayQueue :=
  match q.pop with
  | some (consumerData, q') =>
    (copyFirst (min sample.length consumerData.length) sample consumerData, q')
  | none => (sample.map fun _ => 0, q)

/-- The `for sample in data.chunks_mut(PACKAGE_SIZE)` loop of the
output callback, over an explicit list of chunks: returns the mutated
chunks (in order) and the final queue. -/
def processChunks (q : RelayQueue) : List (List Sample) → List (List Sample) × RelayQueue
  | [] => ([], q)
  | c :: cs =>
    let r := outputChunk q c
    let rs := processChunks r.2 cs
    (r.1 :: rs.1, rs.2)

/-- The `speaker` output callback `output_data_fn`
(src/service/src/main.rs:157-167): `data` is the buffer's previous
contents; the result is the buffer after the callback plus the new
queue state. -/
def outputCallback (q : RelayQueue) (data : List Sample) : List Sample × RelayQueue :=
  let r := processChunks q (chunksOf PACKAGE_SIZE data)
  (r.1.flatten, r.2)

/-- The `microphone` input callback `input_data_fn`
(src/service/src/main.rs:131-137): slice `data` into chunks of at most
`PACKAGE_SIZE` and push each chunk, dropping it when the queue is
full. -/
def inputCallback (q : RelayQueue) (data : List Sample) : RelayQueue :=
  (chunksOf PACKAGE_SIZE data).foldl (fun qq c => (qq.push c).2) q

/-- One received `Flow` handled by the `send_flow` ingest task
(src/service/src/main.rs:48-56): the whole payload is pushed, dropped
when the queue is full; no length check is performed. -/
def sendFlowStep (q : RelayQueue) (flow : Packet) : RelayQueue :=
  (q.push flow).2

/-- The spec's per-chunk copy rule, stated in the spec's own words:
copy `min(requested_len, packet_len)` samples from the packet's
prefix, keep the chunk's remainder; with no packet, fill the chunk
with zeros. -/
def sinkSpecChunk (q : RelayQueue) (c : List Sample) : List Sample × RelayQueue :=
  match q.items with
  | p :: rest =>
    (p.take (min c.length p.length) ++ c.drop (min c.length p.length), ⟨rest⟩)
  | [] => (List.replicate c.length 0, q)

/-- The spec's copy rule folded over a chunk list. -/
def sinkSpecChunks (q : RelayQueue) : List (List Sample) → List (List Sample) × RelayQueue
  | [] => ([], q)
  | c :: cs =>
    let r := sinkSpecChunk q c
    let rs := sinkSpecChunks r.2 cs
    (r.1 :: rs.1, rs.2)

/-- The spec's Playback Sink behaviour for a whole requested buffer. -/
def sinkSpec (q : RelayQueue) (data : List Sample) : List Sample × RelayQueue :=
  let r := sinkSpecChunks q (chunksOf PACKAGE_SIZE data)
  (r.1.flatten, r.2)

theorem map_zero_eq_replicate (c : List Sample) :
    (c.map fun _ => (0 : Sample)) = List.replicate c.length 0 := by
  induction c with
  | nil => rfl
  | cons a c ih => simp [ih, List.replicate_succ]

theorem outputChunk_eq_sinkSpecChunk (q : RelayQueue) (c : List Sample) :
    outputChunk q c = sinkSpecChunk q c := by
  unfold outputChunk sinkSpecChunk RelayQueue.pop
  match q with
  | ⟨[]⟩ => exact Prod.ext (map_zero_eq_replicate c) rfl
  | ⟨p :: rest⟩ =>
    simp only
    congr 1
    exact copyFirst_eq _ c p (Nat.min_le_left _ _) (Nat.min_le_right _ _)

theorem processChunks_eq_sinkSpecChunks (cs : List (List Sample)) :
    ∀ q : RelayQueue, processChunks q cs = sinkSpecChunks q cs := by
  induction cs with
  | nil => intro q; rfl
  | cons c cs ih =>
    intro q
    simp only [processChunks, sinkSpecChunks, outputChunk_eq_sinkSpecChunk, ih]

/-- C1: Playback Sink per-chunk copy rule — every invocation of the
output callback processes the buffer in chunks of at most
`PACKAGE_SIZE` (each nonempty), and the callback's effect equals the
spec's rule: per chunk of length L, with a packet of length P
available exactly `min L P` samples are overwritten from the packet's
prefix and the remaining `L - min L P` samples keep their previous
values; with no packet available the whole chunk becomes zero. -/
theorem playback_per_chunk_copy_rule (q : RelayQueue) (data : List Sample) :
    outputCallback q data = sinkSpec q data ∧
    ∀ c ∈ chunksOf PACKAGE_SIZE data, 0 < c.length ∧ c.length ≤ PACKAGE_SIZE := by
  constructor
  · unfold outputCallback sinkSpec
    rw [processChunks_eq_sinkSpecChunks]
  · intro c hc
    exact length_mem_chunksOf PACKAGE_SIZE data c (by norm_num [PACKAGE_SIZE]) hc

/-- Witness for C1 at a concrete queue and buffer. -/
theorem playback_per_chunk_copy_rule_witness :
    outputCallback ⟨[[1]]⟩ [0, 0] = sinkSpec ⟨[[1]]⟩ [0, 0] ∧
    (0 < ([0, 0] : List Sample).length ∧ ([0, 0] : List Sample).length ≤ PACKAGE_SIZE) :=
  ⟨(playback_per_chunk_copy_rule ⟨[[1]]⟩ [0, 0]).1,
   (playback_per_chunk_copy_rule ⟨[[1]]⟩ [0, 0]).2 [0, 0] (by decide)⟩

/-- C2: pushing to a relay queue holding its full capacity of 128
packets fails, discards exactly the incoming packet, leaves the stored
sequence unchanged, and does not block (it is a total function). -/
theorem push_full_queue_atomic_drop (q : RelayQueue) (p : Packet)
    (hfull : q.items.length = QUEUE_CAPACITY) :
    (q.push p).1 = false ∧ (q.push p).2 = q := by
  unfold RelayQueue.push
  rw [hfull]
  simp

/-- Witness for C2: a queue of 128 packets rejects a push unchanged. -/
theorem push_full_queue_atomic_drop_witness :
    ((⟨List.replicate 128 []⟩ : RelayQueue).items.length = QUEUE_CAPACITY) ∧
    ((⟨List.replicate 128 []⟩ : RelayQueue).push [1]).1 = false ∧
    ((⟨List.replicate 128 []⟩ : RelayQueue).push [1]).2 = ⟨List.replicate 128 []⟩ :=
  ⟨by simp [QUEUE_CAPACITY],
   (push_full_queue_atomic_drop ⟨List.replicate 128 []⟩ [1] (by simp [QUEUE_CAPACITY])).1,
   (push_full_queue_atomic_drop ⟨List.replicate 128 []⟩ [1] (by simp [QUEUE_CAPACITY])).2⟩

/-- `pushAll`: push a sequence of packets one at a time, dropping any
that fail (as every producing call site does). -/
def pushAll (q : RelayQueue) (ps : List Packet) : RelayQueue :=
  ps.foldl (fun qq p => (qq.push p).2) q

/-- Draining pop loop: repeated `pop` until empty, collecting results. -/
def popAllAux : List Packet → List Packet
  | [] => []
  | p :: rest => p :: popAllAux rest

/-- All packets obtained by popping a queue until it is empty. -/
def popAll (q : RelayQueue) : List Packet :=
  popAllAux q.items

theorem popAll_eq_items (q : RelayQueue) : popAll q = q.items := by
  unfold popAll
  induction q.items with
  | nil => rfl
  | cons p rest ih => simp [popAllAux, ih]

theorem pushAll_items (ps : List Packet) : ∀ q : RelayQueue,
    q.items.length + ps.length ≤ QUEUE_CAPACITY →
    (pushAll q ps).items = q.items ++ ps := by
  induction ps with
  | nil => intro q _; simp [pushAll]
  | cons p ps ih =>
    intro q hroom
    have hlt : q.items.length < QUEUE_CAPACITY := by
      simp only [List.length_cons] at hroom
      omega
    have hstep : (q.push p).2 = ⟨q.items ++ [p]⟩ := by
      unfold RelayQueue.push
      rw [if_pos hlt]
    show (pushAll (q.push p).2 ps).items = q.items ++ (p :: ps)
    rw [hstep, ih ⟨q.items ++ [p]⟩ (by simp at hroom ⊢; omega)]
    simp

/-- C3: FIFO round-trip — pushing a sequence of packets one at a time
into a relay queue that has room for all of them (so it is not full at
any push), then popping until empty, returns the prior contents
followed by exactly the pushed packets, in push order, with content
and length unmodified. -/
theorem relay_queue_fifo_round_trip (q : RelayQueue) (ps : List Packet)
    (hroom : q.items.length + ps.length ≤ QUEUE_CAPACITY) :
    (pushAll q ps).items = q.items ++ ps ∧
    popAll (pushAll q ps) = q.items ++ ps := by
  have h := pushAll_items ps q hroom
  exact ⟨h, by rw [popAll_eq_items, h]⟩

/-- Witness for C3 at a concrete queue and packet sequence. -/
theorem relay_queue_fifo_round_trip_witness :
    ((⟨[]⟩ : RelayQueue).items.length + [[1], [2, 3]].length ≤ QUEUE_CAPACITY) ∧
    popAll (pushAll ⟨[]⟩ [[1], [2, 3]]) = [[1], [2, 3]] :=
  ⟨by decide,
   by
    have h := (relay_queue_fifo_round_trip ⟨[]⟩ [[1], [2, 3]] (by decide)).2
    simpa using h⟩

/-- C4: Capture Source chunking — the input buffer is sliced into
consecutive chunks whose concatenation is the buffer, every chunk
except possibly the last has length exactly `PACKAGE_SIZE`, every
chunk is nonempty and at most `PACKAGE_SIZE` long, and a buffer of
2500 samples yields exactly 3 chunks of lengths [1000, 1000, 500]. -/
theorem capture_source_chunking (data : List Sample) :
    (chunksOf PACKAGE_SIZE data).flatten = data ∧
    (∀ c ∈ (chunksOf PACKAGE_SIZE data).dropLast, c.length = PACKAGE_SIZE) ∧
    (data.length = 2500 →
      (chunksOf PACKAGE_SIZE data).map List.length = [1000, 1000, 500]) := by
  refine ⟨flatten_chunksOf PACKAGE_SIZE (by norm_num [PACKAGE_SIZE]) data, ?_, ?_⟩
  · intro c hc
    exact length_mem_dropLast_chunksOf PACKAGE_SIZE data c (by norm_num [PACKAGE_SIZE]) hc
  · intro h
    have h1000 : (0 : Nat) < 1000 := by norm_num
    have hne : data ≠ [] := by
      intro h0
      rw [h0] at h
      simp at h
    have e1 : chunksOf 1000 data = data.take 1000 :: chunksOf 1000 (data.drop 1000) :=
      chunksOf_eq_of_ne_nil 1000 h1000 data hne
    have hl1 : (data.drop 1000).length = 1500 := by simp [h]
    have hne1 : data.drop 1000 ≠ [] := by
      intro h0
      rw [h0] at hl1
      simp at hl1
    have e2 : chunksOf 1000 (data.drop 1000) =
        (data.drop 1000).take 1000 :: chunksOf 1000 ((data.drop 1000).drop 1000) :=
      chunksOf_eq_of_ne_nil 1000 h1000 _ hne1
    have hl2 : ((data.drop 1000).drop 1000).length = 500 := by simp [h]
    have hne2 : (data.drop 1000).drop 1000 ≠ [] := by
      intro h0
      rw [h0] at hl2
      simp at hl2
    have e3 : chunksOf 1000 ((data.drop 1000).drop 1000) = [(data.drop 1000).drop 1000] :=
      chunksOf_eq_singleton 1000 h1000 _ hne2 (by omega)
    show (chunksOf 1000 data).map List.length = [1000, 1000, 500]
    rw [e1, e2, e3]
    simp [List.length_take, h, hl1, hl2]

/-- Witness for C4 at a concrete 2500-sample buffer. -/
theorem capture_source_chunking_witness :
    ((List.replicate 2500 (0 : Sample)).length = 2500) ∧
    (chunksOf PACKAGE_SIZE (List.replicate 2500 (0 : Sample))).map List.length
      = [1000, 1000, 500] :=
  ⟨List.length_replicate 2500 0,
   (capture_source_chunking (List.replicate 2500 (0 : Sample))).2.2
     (List.length_replicate 2500 0)⟩

/-- C10: oversized-packet truncation — when the available packet is
longer than the requested chunk, only the chunk-length prefix of the
packet is copied; the packet was removed from the queue whole, so its
remaining samples are discarded and cannot reach a later chunk or
callback invocation (the queue continues exactly with the following
packets). -/
theorem playback_oversized_packet_truncated (q : RelayQueue) (sample p : List Sample)
    (rest : List Packet) (hq : q.items = p :: rest) (hlt : sample.length < p.length) :
    (outputChunk q sample).1 = p.take sample.length ∧
    (outputChunk q sample).2.items = rest := by
  obtain ⟨qitems⟩ := q
  simp only at hq
  subst hq
  simp only [outputChunk, RelayQueue.pop]
  constructor
  · rw [Nat.min_eq_left (Nat.le_of_lt hlt),
      copyFirst_eq sample.length sample p (Nat.le_refl _) (Nat.le_of_lt hlt),
      List.drop_length, List.append_nil]
  · trivial

/-- Witness for C10 at a concrete one-packet queue. -/
theorem playback_oversized_packet_truncated_witness :
    ((⟨[[5, 6]]⟩ : RelayQueue).items = [5, 6] :: []) ∧
    (([9] : List Sample).length < ([5, 6] : List Sample).length) ∧
    (outputChunk ⟨[[5, 6]]⟩ [9]).1 = [5] ∧
    (outputChunk ⟨[[5, 6]]⟩ [9]).2.items = [] :=
  ⟨rfl, by decide,
   by simpa using (playback_oversized_packet_truncated ⟨[[5, 6]]⟩ [9] [5, 6] [] rfl (by decide)).1,
   (playback_oversized_packet_truncated ⟨[[5, 6]]⟩ [9] [5, 6] [] rfl (by decide)).2⟩

theorem first_pull_eq (prev : List Sample) (hprev : prev.length = 1000) :
    outputCallback ⟨[List.replicate 500 1, List.replicate 1000 (1/2)]⟩ prev
      = (List.replicate 500 1 ++ prev.drop 500, ⟨[List.replicate 1000 (1/2)]⟩) := by
  have hne : prev ≠ [] := by
    intro h0
    rw [h0] at hprev
    simp at hprev
  have hchunks : chunksOf PACKAGE_SIZE prev = [prev] :=
    chunksOf_eq_singleton PACKAGE_SIZE (by norm_num [PACKAGE_SIZE]) prev hne
      (by rw [hprev]; norm_num [PACKAGE_SIZE])
  unfold outputCallback
  rw [hchunks]
  simp only [processChunks, outputChunk_eq_sinkSpecChunk, sinkSpecChunk,
    List.flatten_cons, List.flatten_nil]
  rw [List.length_replicate, hprev]
  norm_num

theorem second_pull_eq (prev : List Sample) (hprev : prev.length = 1000) :
    outputCallback ⟨[List.replicate 1000 (1/2)]⟩ prev
      = (List.replicate 1000 (1/2), ⟨[]⟩) := by
  have hne : prev ≠ [] := by
    intro h0
    rw [h0] at hprev
    simp at hprev
  have hchunks : chunksOf PACKAGE_SIZE prev = [prev] :=
    chunksOf_eq_singleton PACKAGE_SIZE (by norm_num [PACKAGE_SIZE]) prev hne
      (by rw [hprev]; norm_num [PACKAGE_SIZE])
  unfold outputCallback
  rw [hchunks]
  simp only [processChunks, outputChunk_eq_sinkSpecChunk, sinkSpecChunk,
    List.flatten_cons, List.flatten_nil]
  rw [List.length_replicate, hprev]
  norm_num
  exact Nat.le_of_eq hprev

theorem underrun_pull_eq (prev : List Sample) (hprev : prev.length = 1000) :
    outputCallback ⟨[]⟩ prev = (List.replicate 1000 0, ⟨[]⟩) := by
  have hne : prev ≠ [] := by
    intro h0
    rw [h0] at hprev
    simp at hprev
  have hchunks : chunksOf PACKAGE_SIZE prev = [prev] :=
    chunksOf_eq_singleton PACKAGE_SIZE (by norm_num [PACKAGE_SIZE]) prev hne
      (by rw [hprev]; norm_num [PACKAGE_SIZE])
  unfold outputCallback
  rw [hchunks]
  simp only [processChunks, outputChunk_eq_sinkSpecChunk, sinkSpecChunk,
    List.flatten_cons, List.flatten_nil]
  rw [hprev, List.append_nil]

/-- C5 (amended): with the playback queue holding exactly Packet A
(500 samples of 1.0) then Packet B (1000 samples of 0.5), consecutive
1000-sample pulls produce: pull 1 = A followed by the previous cycle's
samples at positions 500..999 (B is untouched — one packet is popped
per 1000-sample chunk); pull 2 = all of B (1000 samples of 0.5); only
a later pull with the queue empty yields silence. -/
theorem end_to_end_playback_pulls (prev : List Sample) (hprev : prev.length = 1000) :
    outputCallback ⟨[List.replicate 500 1, List.replicate 1000 (1/2)]⟩ prev
      = (List.replicate 500 1 ++ prev.drop 500, ⟨[List.replicate 1000 (1/2)]⟩) ∧
    outputCallback ⟨[List.replicate 1000 (1/2)]⟩ (List.replicate 500 1 ++ prev.drop 500)
      = (List.replicate 1000 (1/2), ⟨[]⟩) ∧
    outputCallback ⟨[]⟩ (List.replicate 1000 (1/2)) = (List.replicate 1000 0, ⟨[]⟩) := by
  refine ⟨first_pull_eq prev hprev, second_pull_eq _ ?_,
    underrun_pull_eq _ (List.length_replicate 1000 _)⟩
  rw [List.length_append, List.length_replicate, List.length_drop, hprev]

/-- C5 counterexample: with a zeroed output buffer, the first pull is
500 ones followed by 500 ZEROS, not the claimed 500 ones followed by
500 halves — the tail of pull 1 comes from the previous buffer cycle,
never from Packet B. -/
theorem end_to_end_claimed_pull_one_false :
    (outputCallback ⟨[List.replicate 500 1, List.replicate 1000 (1/2)]⟩
        (List.replicate 1000 0)).1
      ≠ List.replicate 500 1 ++ List.replicate 500 (1/2) := by
  have h := first_pull_eq (List.replicate 1000 0) (List.length_replicate 1000 0)
  rw [congrArg Prod.fst h]
  intro heq
  have h2 : (List.replicate 1000 (0 : Sample)).drop 500 = List.replicate 500 (1/2) :=
    List.append_cancel_left heq
  rw [List.drop_replicate] at h2
  norm_num at h2

/-- Witness for the amended C5 at a zeroed previous buffer. -/
theorem end_to_end_playback_pulls_witness :
    ((List.replicate 1000 (0 : Sample)).length = 1000) ∧
    outputCallback ⟨[List.replicate 500 1, List.replicate 1000 (1/2)]⟩
        (List.replicate 1000 0)
      = (List.replicate 500 1 ++ (List.replicate 1000 (0 : Sample)).drop 500,
         ⟨[List.replicate 1000 (1/2)]⟩) :=
  ⟨List.length_replicate 1000 0,
   (end_to_end_playback_pulls (List.replicate 1000 0) (List.length_replicate 1000 0)).1⟩

theorem foldl_push_preserves (P : Packet → Prop) (cs : List Packet) :
    ∀ q : RelayQueue, (∀ p ∈ q.items, P p) → (∀ c ∈ cs, P c) →
    ∀ p ∈ (cs.foldl (fun qq c => (qq.push c).2) q).items, P p := by
  induction cs with
  | nil =>
    intro q hq _
    exact hq
  | cons c cs ih =>
    intro q hq hcs
    simp only [List.foldl_cons]
    apply ih
    · intro p hp
      unfold RelayQueue.push at hp
      by_cases hlen : q.items.length < QUEUE_CAPACITY
      · rw [if_pos hlen] at hp
        simp only at hp
        rcases List.mem_append.mp hp with h | h
        · exact hq p h
        · rw [List.mem_singleton.mp h]
          exact hcs c (List.mem_cons_self c cs)
      · rw [if_neg hlen] at hp
        exact hq p hp
    · intro c' hc'
      exact hcs c' (List.mem_cons_of_mem c hc')

/-- C6 (amended): the Capture Source chunking path only produces
packets of length at most `PACKAGE_SIZE` — an input callback preserves
the bound for every packet in the capture relay queue.  The Flow
Ingest path does NOT enforce the bound (see the counterexample). -/
theorem capture_path_packet_length_bound (q : RelayQueue) (data : List Sample)
    (hq : ∀ p ∈ q.items, p.length ≤ PACKAGE_SIZE) :
    ∀ p ∈ (inputCallback q data).items, p.length ≤ PACKAGE_SIZE := by
  unfold inputCallback
  apply foldl_push_preserves _ _ q hq
  intro c hc
  exact (length_mem_chunksOf PACKAGE_SIZE data c (by norm_num [PACKAGE_SIZE]) hc).2

/-- C6 counterexample: `send_flow` pushes the received payload with no
length check, so a 1001-sample Flow enters the playback relay queue
intact, exceeding `PACKAGE_SIZE`. -/
theorem send_flow_oversized_packet_enters_queue :
    (sendFlowStep ⟨[]⟩ (List.replicate 1001 0)).items = [List.replicate 1001 0] ∧
    PACKAGE_SIZE < (List.replicate 1001 (0 : Sample)).length := by
  constructor
  · unfold sendFlowStep RelayQueue.push
    norm_num [QUEUE_CAPACITY]
  · rw [List.length_replicate]
    norm_num [PACKAGE_SIZE]

/-- Witness for the amended C6 at an empty queue and a 2-sample buffer. -/
theorem capture_path_packet_length_bound_witness :
    (∀ p ∈ (⟨[]⟩ : RelayQueue).items, p.length ≤ PACKAGE_SIZE) ∧
    ∀ p ∈ (inputCallback ⟨[]⟩ [1, 2]).items, p.length ≤ PACKAGE_SIZE :=
  ⟨by simp, capture_path_packet_length_bound ⟨[]⟩ [1, 2] (by simp)⟩

/-- A device as the handlers see it: the `pulsectl` `DeviceInfo`
`index` and `name` fields used by `set_device`. -/
structure RegDevice where
  index : Nat
  name : String
deriving DecidableEq, Repr

/-- Modelled from the spec: the external Device Registry
(`pulsectl::SinkController`, not part of this repository's sources) —
`devices` is what `list_devices` returns at the time of the call,
`defaultDevice` the name set by `set_default_device`. -/
structure Registry where
  devices : List RegDevice
  defaultDevice : Option String
deriving DecidableEq, Repr

/-- The gRPC failure the handler can produce:
`Status::not_found("Device not found")`. -/
inductive RpcStatus where
  | notFound : RpcStatus
deriving DecidableEq, Repr

/-- The `set_device` handler (src/service/src/main.rs:75-82): list the
registry's devices, find the one whose `index` equals the requested
id; if none matches return NotFound and mutate nothing; otherwise set
that device as default and return success. -/
def setDevice (reg : Registry) (id : Nat) : Except RpcStatus Unit × Registry :=
  match reg.devices.find? (fun d => d.index == id) with
  | none => (Except.error RpcStatus.notFound, reg)
  | some d => (Except.ok (), { reg with defaultDevice := some d.name })

/-- C7: SetDevice error handling — an id matching no listed device
yields NotFound with the registry unmutated; an id whose lookup
succeeds sets the matching device as default and returns success. -/
theorem set_device_contract (reg : Registry) (id : Nat) :
    ((∀ d ∈ reg.devices, d.index ≠ id) →
      setDevice reg id = (Except.error RpcStatus.notFound, reg)) ∧
    (∀ d, reg.devices.find? (fun d => d.index == id) = some d →
      setDevice reg id = (Except.ok (), { reg with defaultDevice := some d.name })) := by
  constructor
  · intro hall
    have hnone : reg.devices.find? (fun d => d.index == id) = none :=
      List.find?_eq_none.mpr (fun d hd => by simpa using hall d hd)
    unfold setDevice
    rw [hnone]
  · intro d hd
    unfold setDevice
    rw [hd]

/-- Witness for C7: one absent id, one present id, on a one-device
registry. -/
theorem set_device_contract_witness :
    ((∀ d ∈ (Registry.mk [⟨3, "a"⟩] none).devices, d.index ≠ 5) ∧
      setDevice (Registry.mk [⟨3, "a"⟩] none) 5
        = (Except.error RpcStatus.notFound, Registry.mk [⟨3, "a"⟩] none)) ∧
    ((Registry.mk [⟨3, "a"⟩] none).devices.find? (fun d => d.index == 3)
        = some ⟨3, "a"⟩ ∧
      setDevice (Registry.mk [⟨3, "a"⟩] none) 3
        = (Except.ok (), Registry.mk [⟨3, "a"⟩] (some "a"))) :=
  ⟨⟨by decide, (set_device_contract (Registry.mk [⟨3, "a"⟩] none) 5).1 (by decide)⟩,
   ⟨by decide, (set_device_contract (Registry.mk [⟨3, "a"⟩] none) 3).2 ⟨3, "a"⟩ (by decide)⟩⟩

/-- State of the broadcaster polling loop in `main`: the capture relay
queue it drains and the log of packets sent on the broadcast channel
(`tx.send` never blocks; a send is an append to the log). -/
structure BroadcasterState where
  captureQueue : RelayQueue
  published : List Packet
deriving DecidableEq, Repr

/-- One iteration of the `main` polling loop
(src/service/src/main.rs:105-113): try one `pop`; on success send the
packet on the broadcast channel and continue immediately; on failure
sleep 10 ms.  Returns the new state and the milliseconds slept. -/
def broadcasterStep (s : BroadcasterState) : BroadcasterState × Nat :=
  match s.captureQueue.pop with
  | some (p, q') => ({ captureQueue := q', published := s.published ++ [p] }, 0)
  | none => (s, 10)

/-- C8: Flow Broadcaster loop step — on an empty capture queue nothing
is published and the loop sleeps exactly 10 ms; otherwise exactly the
one oldest packet is popped and published and the loop does not sleep. -/
theorem broadcaster_loop_step (s : BroadcasterState) :
    (s.captureQueue.items = [] → broadcasterStep s = (s, 10)) ∧
    (∀ p rest, s.captureQueue.items = p :: rest →
      broadcasterStep s
        = ({ captureQueue := ⟨rest⟩, published := s.published ++ [p] }, 0)) := by
  obtain ⟨⟨qitems⟩, pub⟩ := s
  constructor
  · intro h
    simp only at h
    subst h
    rfl
  · intro p rest h
    simp only at h
    subst h
    rfl

/-- Witness for C8: one empty-queue step and one nonempty-queue step. -/
theorem broadcaster_loop_step_witness :
    broadcasterStep ⟨⟨[]⟩, []⟩ = (⟨⟨[]⟩, []⟩, 10) ∧
    broadcasterStep ⟨⟨[[2]]⟩, []⟩ = (⟨⟨[]⟩, [[2]]⟩, 0) :=
  ⟨(broadcaster_loop_step ⟨⟨[]⟩, []⟩).1 rfl,
   by simpa using (broadcaster_loop_step ⟨⟨[[2]]⟩, []⟩).2 [2] [] rfl⟩

/-- `channel(128)` in `main`. -/
def BROADCAST_CAPACITY : Nat := 128

/-- Modelled from the spec: the tokio broadcast channel (not part of
this repository's sources) as the append-only log of everything ever
published; a subscriber is a cursor into the log. -/
structure BroadcastChannel where
  log : List Packet
deriving DecidableEq, Repr

/-- Publishing appends to the log.  It is a total function of the
channel and the packet alone: no subscriber cursor occurs in it, so no
subscriber can block or slow it. -/
def BroadcastChannel.send (b : BroadcastChannel) (p : Packet) : BroadcastChannel :=
  ⟨b.log ++ [p]⟩

/-- Modelled from the spec: a subscriber's receive.  With nothing
unread it would await (`none`); a reader more than
`BROADCAST_CAPACITY` behind is lagged: its cursor jumps forward so
that only the newest `BROADCAST_CAPACITY` entries remain readable
(oldest unread items are dropped for that reader alone).  The channel
itself is not modified. -/
def BroadcastChannel.recv (b : BroadcastChannel) (cursor : Nat) :
    Option (Packet × Nat) :=
  if b.log.length ≤ cursor then none
  else
    some (b.log.getD (max cursor (b.log.length - BROADCAST_CAPACITY)) [],
      max cursor (b.log.length - BROADCAST_CAPACITY) + 1)

/-- A subscriber that keeps pace: after each publish it receives once.
Collects what it receives. -/
def runFast (b : BroadcastChannel) (cursor : Nat) : List Packet → List Packet
  | [] => []
  | p :: ps =>
    match (b.send p).recv cursor with
    | some r => r.1 :: runFast (b.send p) r.2 ps
    | none => runFast (b.send p) cursor ps

theorem recv_after_send (b : BroadcastChannel) (p : Packet) :
    (b.send p).recv b.log.length = some (p, b.log.length + 1) := by
  unfold BroadcastChannel.send BroadcastChannel.recv
  have hlen : (b.log ++ [p]).length = b.log.length + 1 := by simp
  simp only [hlen]
  rw [if_neg (by omega)]
  have hmax : max b.log.length (b.log.length + 1 - BROADCAST_CAPACITY)
      = b.log.length := by
    unfold BROADCAST_CAPACITY
    omega
  rw [hmax]
  have hget : (b.log ++ [p]).getD b.log.length [] = p := by
    rw [List.getD_eq_getElem?_getD, List.getElem?_append_right (Nat.le_refl _)]
    simp
  rw [hget]

theorem runFast_receives_all (ps : List Packet) : ∀ (b : BroadcastChannel) (c : Nat),
    c = b.log.length → runFast b c ps = ps := by
  induction ps with
  | nil => intro b c _; rfl
  | cons p ps ih =>
    intro b c hc
    subst hc
    simp only [runFast, recv_after_send]
    congr 1
    apply ih
    simp [BroadcastChannel.send]

theorem recv_lagged (b : BroadcastChannel) (c₂ : Nat)
    (h : c₂ + BROADCAST_CAPACITY < b.log.length) :
    b.recv c₂ = some (b.log.getD (b.log.length - BROADCAST_CAPACITY) [],
      b.log.length - BROADCAST_CAPACITY + 1) := by
  unfold BroadcastChannel.recv
  rw [if_neg (by omega)]
  have hmax : max c₂ (b.log.length - BROADCAST_CAPACITY)
      = b.log.length - BROADCAST_CAPACITY := by omega
  rw [hmax]

/-- C9: subscriber isolation — a subscriber S1 that starts caught up
and receives after every publish obtains every published packet, and
this holds as a function of the channel alone, whatever any other
subscriber's cursor is; a subscriber S2 that has fallen more than the
broadcast capacity behind merely loses its oldest unread packets (its
next receive starts at the oldest retained entry), while neither
`send` nor S1's receives mention S2's cursor at all. -/
theorem subscriber_isolation (b : BroadcastChannel) (ps : List Packet) (c₁ c₂ : Nat)
    (h₁ : c₁ = b.log.length) (h₂ : c₂ + BROADCAST_CAPACITY < b.log.length) :
    runFast b c₁ ps = ps ∧
    b.recv c₂ = some (b.log.getD (b.log.length - BROADCAST_CAPACITY) [],
      b.log.length - BROADCAST_CAPACITY + 1) :=
  ⟨runFast_receives_all ps b c₁ h₁, recv_lagged b c₂ h₂⟩

/-- Witness for C9 on a 130-entry log: S1 at cursor 130 receives the
new packet; S2 at cursor 0 is lagged. -/
theorem subscriber_isolation_witness :
    (130 = (BroadcastChannel.mk (List.replicate 130 [])).log.length) ∧
    (0 + BROADCAST_CAPACITY < (BroadcastChannel.mk (List.replicate 130 [])).log.length) ∧
    runFast (BroadcastChannel.mk (List.replicate 130 [])) 130 [[1]] = [[1]] :=
  ⟨(List.length_replicate 130 []).symm,
   by rw [List.length_replicate]; norm_num [BROADCAST_CAPACITY],
   (subscriber_isolation (BroadcastChannel.mk (List.replicate 130 [])) [[1]] 130 0
     (List.length_replicate 130 []).symm
     (by rw [List.length_replicate]; norm_num [BROADCAST_CAPACITY])).1⟩
